import Mathlib

/-!
Shallow embedding of the `ankura` interactive topic-modeling server:
the tokenizer pipeline (`src/ankura/tokenize.py`) and the anchor-words
serving layer (`src/server/server.py`).

Documents are modelled as lists of Unicode code points (`List Nat`); a
Python file object is replaced by the (remaining) contents of the file.
`str.split()`, `str.strip()` and `str.lower()` are modelled on the ASCII
range.  Vocabulary terms are `String`s.  Fallible operations (vocabulary
lookups, list indexing) return `Option`.
-/

/-- Python whitespace on the ASCII range (space, tab, newline, carriage
return, vertical tab, form feed), as used by `str.split()`/`str.strip()`. -/
def isSpace (c : Nat) : Bool :=
  c = 32 || c = 9 || c = 10 || c = 13 || c = 11 || c = 12

/-- Python `str.lower()` on the ASCII range: map `A`–`Z` (65–90) down by 32. -/
def pyLower (c : Nat) : Nat := if 65 ≤ c && c ≤ 90 then c + 32 else c

/-- The character class `[a-z]` (code points 97–122) kept by
`re.sub(r'[^a-z]', '', token)` in `simple`. -/
def isLowerAlpha (c : Nat) : Bool := 97 ≤ c && c ≤ 122

/-- Code points of a string literal; used to write concrete documents. -/
def str2code (s : String) : List Nat := s.toList.map (fun c => c.toNat)

/-- Worker for `split`: `acc` holds the characters of the current token in
reverse. -/
def splitAux : List Nat → List Nat → List (List Nat)
  | [], acc => if acc = [] then [] else [acc.reverse]
  | c :: cs, acc =>
    if isSpace c then
      if acc = [] then splitAux cs [] else acc.reverse :: splitAux cs []
    else
      splitAux cs (c :: acc)

/-- `split` (tokenize.py): `doc_file.read().split()` — Python `str.split()`
with no separator splits on runs of whitespace and yields no empty token. -/
def split (doc : List Nat) : List (List Nat) := splitAux doc []

/-- `simple` (tokenize.py): delegate to `splitter`, lower-case every token,
strip every character outside `a-z`, and drop tokens that became empty. -/
def simple (doc : List Nat) (splitter : List Nat → List (List Nat)) :
    List (List Nat) :=
  (((splitter doc).map (fun t => t.map pyLower)).map
      (fun t => t.filter isLowerAlpha)).filter (fun t => !t.isEmpty)

/-- `' '.join(tokens)` (space = 32): joining a token sequence with
whitespace, used to feed `simple`'s output back to `simple`. -/
def joinTokens : List (List Nat) → List Nat
  | [] => []
  | [t] => t
  | t :: ts => t ++ 32 :: joinTokens ts

/-- `doc_file.readline()`: the first line of the file (including its
terminating newline, code 10, when present) together with the rest. -/
def splitFirstLine : List Nat → List Nat × List Nat
  | [] => ([], [])
  | c :: cs =>
    if c = 10 then ([c], cs)
    else (c :: (splitFirstLine cs).1, (splitFirstLine cs).2)

theorem splitFirstLine_append (s : List Nat) :
    (splitFirstLine s).1 ++ (splitFirstLine s).2 = s := by
  induction s with
  | nil => rfl
  | cons c cs ih =>
    by_cases h : c = 10 <;> simp [splitFirstLine, h, ih]

theorem splitFirstLine_snd_le (s : List Nat) :
    ((splitFirstLine s).2).length ≤ s.length := by
  induction s with
  | nil => exact Nat.le_refl 0
  | cons c cs ih =>
    by_cases h : c = 10 <;> simp [splitFirstLine, h] <;> omega

theorem splitFirstLine_snd_lt (c : Nat) (cs : List Nat) :
    ((splitFirstLine (c :: cs)).2).length < (c :: cs).length := by
  have h := splitFirstLine_snd_le cs
  by_cases hc : c = 10 <;> simp [splitFirstLine, hc] <;> omega

/-- The header scan of `news` (tokenize.py): `readline` until a line whose
`strip()` is empty (a line of whitespace, or `''` at end of file); the value
is what remains of the file afterwards. -/
def dropHeader (s : List Nat) : List Nat :=
  if h : ((splitFirstLine s).1).all isSpace then (splitFirstLine s).2
  else dropHeader (splitFirstLine s).2
termination_by s.length
decreasing_by
  cases s with
  | nil => exact absurd rfl h
  | cons c cs => exact splitFirstLine_snd_lt c cs

/-- `news` (tokenize.py): skip everything up to and including the first
blank line, then tokenize what remains.  The `try/except` in the source
only prints the failing source before re-raising, so it has no effect on a
pure read. -/
def news (doc : List Nat) (tokenizer : List Nat → List (List Nat)) :
    List (List Nat) :=
  tokenizer (dropHeader doc)

/-- The lines of a file as successive `readline` calls yield them (each
including its newline except possibly the last; never the empty string). -/
def fileLines (s : List Nat) : List (List Nat) :=
  match s with
  | [] => []
  | c :: cs => (splitFirstLine (c :: cs)).1 :: fileLines (splitFirstLine (c :: cs)).2
termination_by s.length
decreasing_by exact splitFirstLine_snd_lt c cs

/-- Literal prefix test. -/
def isPrefixL : List Nat → List Nat → Bool
  | [], _ => true
  | _ :: _, [] => false
  | p :: ps, c :: cs => p = c && isPrefixL ps cs

/-- Case-insensitive prefix test for a lower-case pattern (Python `re.I`
on the ASCII range). -/
def ciPrefixL : List Nat → List Nat → Bool
  | [], _ => true
  | _ :: _, [] => false
  | p :: ps, c :: cs => p = pyLower c && ciPrefixL ps cs

/-- Rest of the input after the first `>` (code 62), if any: the
non-greedy `.*?>` step of the tag regexes. -/
def findGtRest : List Nat → Option (List Nat)
  | [] => none
  | c :: cs => if c = 62 then some cs else findGtRest cs

/-- Rest of the input after the first case-insensitive occurrence of `pat`
(pattern given in lower case), if any: the non-greedy `.*?(</\1>)` step. -/
def findCiRest (pat : List Nat) : List Nat → Option (List Nat)
  | [] => none
  | c :: cs =>
    if ciPrefixL pat (c :: cs) then some ((c :: cs).drop pat.length)
    else findCiRest pat cs

theorem findGtRest_lt (s r : List Nat) (h : findGtRest s = some r) :
    r.length < s.length := by
  induction s with
  | nil => simp [findGtRest] at h
  | cons c cs ih =>
    by_cases hc : c = 62
    · simp [findGtRest, hc] at h
      subst h; simp
    · simp [findGtRest, hc] at h
      have := ih h; simp; omega

theorem findCiRest_le (pat s r : List Nat) (h : findCiRest pat s = some r) :
    r.length ≤ s.length := by
  induction s with
  | nil => simp [findCiRest] at h
  | cons c cs ih =>
    by_cases hc : ciPrefixL pat (c :: cs) = true
    · simp [findCiRest, hc] at h
      subst h
      have : ((c :: cs).drop pat.length).length ≤ (c :: cs).length := by simp
      exact this
    · simp [findCiRest, hc] at h
      have := ih h; simp; omega

/-- Code points of `"<script"`. -/
def openScript : List Nat := [60, 115, 99, 114, 105, 112, 116]

/-- Code points of `"</script>"`. -/
def closeScript : List Nat := [60, 47, 115, 99, 114, 105, 112, 116, 62]

/-- Code points of `"<style"`. -/
def openStyle : List Nat := [60, 115, 116, 121, 108, 101]

/-- Code points of `"</style>"`. -/
def closeStyle : List Nat := [60, 47, 115, 116, 121, 108, 101, 62]

/-- Code points of `"<!--"`. -/
def commentOpen : List Nat := [60, 33, 45, 45]

/-- Code points of `"&nbsp;"`. -/
def nbspCode : List Nat := [38, 110, 98, 115, 112, 59]

/-- One attempt of `(?is)<(script|style).*?>.*?(</\1>)` at the head of the
input: on a match, the input remaining after the whole match.  Non-greedy
semantics: first `>` after the opening tag name, then the first matching
close tag after it. -/
def scriptStyleMatch (s : List Nat) : Option (List Nat) :=
  if ciPrefixL openScript s then
    match findGtRest (s.drop openScript.length) with
    | some a => findCiRest closeScript a
    | none => none
  else if ciPrefixL openStyle s then
    match findGtRest (s.drop openStyle.length) with
    | some a => findCiRest closeStyle a
    | none => none
  else none

theorem scriptStyleMatch_lt (s r : List Nat) (h : scriptStyleMatch s = some r) :
    r.length < s.length := by
  unfold scriptStyleMatch at h
  by_cases h1 : ciPrefixL openScript s = true
  · simp [h1] at h
    cases hg : findGtRest (s.drop openScript.length) with
    | none => simp [hg] at h
    | some a =>
      simp [hg] at h
      have ha := findGtRest_lt _ _ hg
      have hr := findCiRest_le _ _ _ h
      have hd : (s.drop openScript.length).length ≤ s.length := by simp
      omega
  · simp [h1] at h
    by_cases h2 : ciPrefixL openStyle s = true
    · simp [h2] at h
      cases hg : findGtRest (s.drop openStyle.length) with
      | none => simp [hg] at h
      | some a =>
        simp [hg] at h
        have ha := findGtRest_lt _ _ hg
        have hr := findCiRest_le _ _ _ h
        have hd : (s.drop openStyle.length).length ≤ s.length := by simp
        omega
    · simp [h2] at h

/-- `re.sub(r'(?is)<(script|style).*?>.*?(</\1>)', '', text)`: repeatedly
delete the leftmost match, scanning one character forward when no match
starts at the current position. -/
def subScriptStyle (s : List Nat) : List Nat :=
  match s with
  | [] => []
  | c :: cs =>
    match h : scriptStyleMatch (c :: cs) with
    | some rest => subScriptStyle rest
    | none => c :: subScriptStyle cs
termination_by s.length
decreasing_by
  · exact scriptStyleMatch_lt _ _ h
  · simp

/-- Rest of the input after the first `-->`, if any. -/
def findCommentClose : List Nat → Option (List Nat)
  | [] => none
  | c :: cs =>
    if isPrefixL [45, 45, 62] (c :: cs) then some (cs.drop 2)
    else findCommentClose cs

theorem findCommentClose_lt (s r : List Nat) (h : findCommentClose s = some r) :
    r.length < s.length := by
  induction s with
  | nil => simp [findCommentClose] at h
  | cons c cs ih =>
    by_cases hc : isPrefixL [45, 45, 62] (c :: cs) = true
    · simp [findCommentClose, hc] at h
      subst h; simp; omega
    · simp [findCommentClose, hc] at h
      have := ih h; simp; omega

/-- The trailing `[\n]?` of the comment regex. -/
def dropOptNewline (s : List Nat) : List Nat :=
  match s with
  | 10 :: rest => rest
  | _ => s

theorem dropOptNewline_le (s : List Nat) : (dropOptNewline s).length ≤ s.length := by
  unfold dropOptNewline
  split <;> simp

/-- `re.sub(r'(?s)<!--(.*?)-->[\n]?', '', text)`. -/
def subComments (s : List Nat) : List Nat :=
  match s with
  | [] => []
  | c :: cs =>
    if isPrefixL commentOpen (c :: cs) then
      match h : findCommentClose (cs.drop 3) with
      | some rest => subComments (dropOptNewline rest)
      | none => c :: subComments cs
    else c :: subComments cs
termination_by s.length
decreasing_by
  · have h1 := findCommentClose_lt _ _ h
    have h2 := dropOptNewline_le rest
    have h3 : (cs.drop 3).length ≤ cs.length := by simp
    simp; omega
  · simp
  · simp

/-- `re.sub(r'(?s)<.*?>', ' ', text)`: replace each leftmost minimal
`<...>` span (60 = `<`) with one space (32). -/
def subTags (s : List Nat) : List Nat :=
  match s with
  | [] => []
  | c :: cs =>
    if c = 60 then
      match h : findGtRest cs with
      | some rest => 32 :: subTags rest
      | none => c :: subTags cs
    else c :: subTags cs
termination_by s.length
decreasing_by
  · have := findGtRest_lt _ _ h; simp; omega
  · simp
  · simp

/-- `re.sub(r'&nbsp;', ' ', text)`. -/
def subNbsp (s : List Nat) : List Nat :=
  match s with
  | [] => []
  | c :: cs =>
    if isPrefixL nbspCode (c :: cs) then 32 :: subNbsp (cs.drop 5)
    else c :: subNbsp cs
termination_by s.length
decreasing_by
  · have : (cs.drop 5).length ≤ cs.length := by simp
    simp; omega
  · simp

/-- `re.sub(r'  ', ' ', text)`: collapse each leftmost non-overlapping pair
of spaces into one. -/
def subDoubleSpace (s : List Nat) : List Nat :=
  match s with
  | [] => []
  | c :: cs =>
    if isPrefixL [32, 32] (c :: cs) then 32 :: subDoubleSpace (cs.drop 1)
    else c :: subDoubleSpace cs
termination_by s.length
decreasing_by
  · have : (cs.drop 1).length ≤ cs.length := by simp
    simp; omega
  · simp

/-- Whether `&nbsp;` occurs anywhere in the input. -/
def hasNbsp : List Nat → Bool
  | [] => false
  | c :: cs => isPrefixL nbspCode (c :: cs) || hasNbsp cs

/-- Python `str.strip()`, trailing half: remove trailing whitespace. -/
def dropTrailing (s : List Nat) : List Nat :=
  ((s.reverse).dropWhile isSpace).reverse

/-- Python `str.strip()`: remove leading and trailing whitespace. -/
def pyStrip (s : List Nat) : List Nat := dropTrailing (s.dropWhile isSpace)

/-- `html` (tokenize.py): strip the text, delete script/style elements and
comments, replace remaining tags by a space, rewrite `&nbsp;`, collapse
double spaces twice, strip again, then tokenize the cleaned text. -/
def html (doc : List Nat) (tokenizer : List Nat → List (List Nat)) :
    List (List Nat) :=
  tokenizer (pyStrip (subDoubleSpace (subDoubleSpace (subNbsp (subTags
    (subComments (subScriptStyle (pyStrip doc))))))))

/-! ### Server data model (src/server/server.py) -/

/-- The dataset as the server sees it: the ordered vocabulary.  The
cooccurrence matrix and other derived statistics are not needed by the
claims about the serving layer. -/
structure Dataset where
  vocab : List String
deriving DecidableEq

/-- A client-facing anchor value: either an integer vocabulary index or a
string term (the `isinstance(anchor, numbers.Integral)` duck typing of
`convert_anchor`). -/
inductive AnchorVal where
  | index : Nat → AnchorVal
  | term : String → AnchorVal
deriving DecidableEq

/-- Python `list.index`: the first position of `t`, or an error
(`ValueError`, modelled as `none`) when `t` is absent. -/
def listIndex (t : String) : List String → Option Nat
  | [] => none
  | v :: vs => if v = t then some 0 else (listIndex t vs).map (fun i => i + 1)

/-- `convert_anchor` (server.py): an integral anchor is returned unchanged;
a string term is resolved through `dataset.vocab.index`, failing
(UnknownTermError) when the term is absent from the vocabulary. -/
def convert_anchor (dataset : Dataset) (anchor : AnchorVal) : Option Nat :=
  match anchor with
  | .index n => some n
  | .term t => listIndex t dataset.vocab

/-- Element-wise fallible map: a Python list comprehension whose body may
raise. -/
def mapOption (f : α → Option β) : List α → Option (List β)
  | [] => some []
  | a :: rest =>
    match f a, mapOption f rest with
    | some b, some bs => some (b :: bs)
    | _, _ => none

/-- Modelled from the spec: `ankura.util.tuplize` (in `ankura/util.py`,
which is not under `src/`) normalizes a nested anchor structure to an
immutable ordered form, applying `conversion` element-wise to each term of
each anchor group and preserving the nested structure without flattening.
Anchor sets are modelled as ordered groups of anchor values (a single term
is a one-element group). -/
def tuplize (anchors : List (List α)) (conversion : α → Option β) :
    Option (List (List β)) :=
  mapOption (fun g => mapOption conversion g) anchors

/-- `reindex_anchors` (server.py): convert any token in a set of anchors to
the index of the token.  (`ankura.util.memoize` does not change the value
of a pure function; its caching behavior is modelled separately below.) -/
def reindex_anchors (dataset : Dataset) (anchors : List (List AnchorVal)) :
    Option (List (List Nat)) :=
  tuplize anchors (fun t => convert_anchor dataset t)

/-- `tokenify_anchors` (server.py):
`[[dataset.vocab[token] for token in anchor] for anchor in anchors]`, with
out-of-range indexing (IndexError) modelled as failure. -/
def tokenify_anchors (dataset : Dataset) (anchors : List (List Nat)) :
    Option (List (List String)) :=
  mapOption (fun anchor => mapOption (fun token => dataset.vocab.get? token) anchor)
    anchors

/-- Value of a topic column at vocabulary index `i`.  Topic weights are
modelled as rationals: the numeric recovery algorithm is out of scope and
only comparisons between weights matter here. -/
def colVal (col : List ℚ) (i : Nat) : ℚ := col.getD i 0

/-- `numpy.argsort(topics[:, k])`: the indices `0 … len-1` reordered by
ascending weight.  The order among tied weights is implementation-defined
in numpy; it is modelled by a stable insertion sort. -/
def pyArgsort (col : List ℚ) : List Nat :=
  List.insertionSort (fun i j => colVal col i ≤ colVal col j)
    (List.range col.length)

/-- `numpy.argsort(...)[-10:][::-1]`: the (up to) ten highest-weighted
vocabulary indices of a topic column, in descending weight order
(`l[-10:]` is `drop (length - 10)`; `[::-1]` is `reverse`). -/
def topWords (col : List ℚ) : List Nat :=
  ((pyArgsort col).drop ((pyArgsort col).length - 10)).reverse

/-- The inner summary loop of `topic_request`: `dataset.vocab[word]` for
each of the top ten words of one topic column. -/
def summarize (dataset : Dataset) (col : List ℚ) : Option (List String) :=
  mapOption (fun w => dataset.vocab.get? w) (topWords col)

/-- The full summary loop of `topic_request`, over the columns of the
topic-by-term matrix.  The matrix is modelled column-wise:
`topics.shape[1]` is the list length and `topics[:, k]` its `k`-th
entry. -/
def topicSummary (dataset : Dataset) (topics : List (List ℚ)) :
    Option (List (List String)) :=
  mapOption (fun col => summarize dataset col) topics

/-- The body of a `/topics` response: the topic summaries, plus the anchors
actually used (token form) only when the caller supplied none. -/
structure TopicResponse where
  topics : List (List String)
  anchors : Option (List (List String))
deriving DecidableEq

/-- `topic_request` (server.py): use the caller's anchors when present and
the cached default set otherwise, convert them to indices, recover the
topic matrix (`ankura.recover_topics` is the opaque external `recover`
argument), summarize every topic column, and include the token form of the
anchors in the response exactly when the caller supplied none. -/
def topic_request (dataset : Dataset)
    (recover : Dataset → List (List Nat) → List (List ℚ))
    (defaultAnchors : List (List AnchorVal))
    (rawAnchors : Option (List (List AnchorVal))) : Option TopicResponse :=
  let anchors0 :=
    match rawAnchors with
    | none => defaultAnchors
    | some a => a
  match reindex_anchors dataset anchors0 with
  | none => none
  | some idxs =>
    match topicSummary dataset (recover dataset idxs) with
    | none => none
    | some summary =>
      match rawAnchors with
      | none =>
        match tokenify_anchors dataset idxs with
        | none => none
        | some toks => some ⟨summary, some toks⟩
      | some _ => some ⟨summary, none⟩

/-! ### Two-level cache model (spec §4.2; `ankura.util` is not under
`src/`, so both wrappers are modelled from the spec) -/

/-- The cache-relevant state around one doubly-wrapped builder: the
in-process memoization table (argument key ↦ result), the durable store
under the builder's fixed name, and instrumentation counters (number of
builder executions and number of times the durable store was touched). -/
structure CacheState (κ α : Type) where
  memo : List (κ × α)
  disk : Option α
  builds : Nat
  diskTouches : Nat
deriving DecidableEq

/-- Lookup in the in-process memoization table. -/
def memoFind [DecidableEq κ] (k : κ) : List (κ × α) → Option α
  | [] => none
  | e :: rest => if e.1 = k then some e.2 else memoFind k rest

/-- Modelled from the spec: `ankura.util.pickle_cache` (in
`ankura/util.py`, not under `src/`) — persistent named caching.  Each call
consults the durable store (one touch): a readable store is deserialized
and returned without invoking the builder; otherwise the builder runs and
its result is serialized under the fixed name and returned. -/
def pickle_cache_call (g : κ → α) (k : κ) (s : CacheState κ α) :
    α × CacheState κ α :=
  match s.disk with
  | some v => (v, ⟨s.memo, s.disk, s.builds, s.diskTouches + 1⟩)
  | none => (g k, ⟨s.memo, some (g k), s.builds + 1, s.diskTouches + 1⟩)

/-- Modelled from the spec: `ankura.util.memoize` stacked outside
`ankura.util.pickle_cache` — the decorator order on `get_newsgroups` and
`default_anchors` (server.py) wraps argument memoization around the
persistently cached builder.  A memo hit returns at once; a miss delegates
to the persistent level and records its answer in the memo table before
returning. -/
def memo_pickle_call [DecidableEq κ] (g : κ → α) (k : κ) (s : CacheState κ α) :
    α × CacheState κ α :=
  match memoFind k s.memo with
  | some v => (v, s)
  | none =>
    let r := pickle_cache_call g k s
    (r.1, ⟨(k, r.1) :: r.2.memo, r.2.disk, r.2.builds, r.2.diskTouches⟩)

/-- A sequence of calls to the doubly-wrapped builder within one process. -/
def memo_pickle_run [DecidableEq κ] (g : κ → α) (ks : List κ)
    (s : CacheState κ α) : CacheState κ α :=
  match ks with
  | [] => s
  | k :: rest => memo_pickle_run g rest (memo_pickle_call g k s).2

/-! ### Helper lemmas: `mapOption` and `listIndex` -/

theorem mapOption_length {α β : Type _} (f : α → Option β) :
    ∀ (l : List α) (r : List β), mapOption f l = some r → r.length = l.length
  | [], r, h => by
    simp [mapOption] at h
    subst h; rfl
  | a :: rest, r, h => by
    simp only [mapOption] at h
    cases hfa : f a with
    | none => simp [hfa] at h
    | some b =>
      cases hrest : mapOption f rest with
      | none => simp [hfa, hrest] at h
      | some bs =>
        simp [hfa, hrest] at h
        subst h
        simp [mapOption_length f rest bs hrest]

theorem mapOption_get? {α β : Type _} (f : α → Option β) :
    ∀ (l : List α) (r : List β), mapOption f l = some r →
      ∀ n, r.get? n = (l.get? n).bind f
  | [], r, h, n => by
    simp [mapOption] at h
    subst h; simp
  | a :: rest, r, h, n => by
    simp only [mapOption] at h
    cases hfa : f a with
    | none => simp [hfa] at h
    | some b =>
      cases hrest : mapOption f rest with
      | none => simp [hfa, hrest] at h
      | some bs =>
        simp [hfa, hrest] at h
        subst h
        cases n with
        | zero => simp [hfa]
        | succ m => simpa using mapOption_get? f rest bs hrest m

theorem mapOption_some {α β : Type _} (f : α → Option β) :
    ∀ (l : List α), (∀ a ∈ l, (f a).isSome) → ∃ r, mapOption f l = some r
  | [], _ => ⟨[], rfl⟩
  | a :: rest, h => by
    obtain ⟨b, hb⟩ := Option.isSome_iff_exists.mp (h a (List.mem_cons_self a rest))
    obtain ⟨bs, hbs⟩ := mapOption_some f rest (fun x hx => h x (List.mem_cons_of_mem a hx))
    exact ⟨b :: bs, by simp [mapOption, hb, hbs]⟩

theorem listIndex_none (t : String) :
    ∀ (l : List String), listIndex t l = none ↔ t ∉ l
  | [] => by simp [listIndex]
  | v :: vs => by
    by_cases hv : v = t
    · simp [listIndex, hv]
    · simp only [listIndex, if_neg hv, Option.map_eq_none', listIndex_none t vs,
        List.mem_cons]
      constructor
      · intro hnv hor
        rcases hor with h1 | h2
        · exact hv h1.symm
        · exact hnv h2
      · intro hall
        exact fun h2 => hall (Or.inr h2)

theorem listIndex_mem (t : String) :
    ∀ (l : List String), t ∈ l → ∃ i, listIndex t l = some i ∧ l.get? i = some t
  | v :: vs, h => by
    by_cases hv : v = t
    · exact ⟨0, by simp [listIndex, hv], by simp [hv]⟩
    · have hvs : t ∈ vs := by
        rcases List.mem_cons.mp h with h1 | h2
        · exact absurd h1.symm hv
        · exact h2
      obtain ⟨j, hj, hg⟩ := listIndex_mem t vs hvs
      exact ⟨j + 1, by simp [listIndex, hv, hj], by simpa using hg⟩

/-- Claim C1: for every term `t` in the dataset's vocabulary, converting the
single-term anchor group `[t]` to indices (`reindex_anchors`, which applies
`convert_anchor` element-wise) and converting those indices back to tokens
(`tokenify_anchors`) yields `[t]` again, with the nested group structure
preserved (no flattening). -/
theorem anchor_conversion_roundtrip (ds : Dataset) (t : String) (h : t ∈ ds.vocab) :
    ∃ i, reindex_anchors ds [[AnchorVal.term t]] = some [[i]] ∧
      tokenify_anchors ds [[i]] = some [[t]] := by
  obtain ⟨i, hidx, hget⟩ := listIndex_mem t ds.vocab h
  rw [List.get?_eq_getElem?] at hget
  refine ⟨i, ?_, ?_⟩
  · simp [reindex_anchors, tuplize, mapOption, convert_anchor, hidx]
  · simp [tokenify_anchors, mapOption, hget]

/-- Witness for C1 at a concrete dataset and vocabulary term. -/
theorem anchor_conversion_roundtrip_witness :
    ∃ i, reindex_anchors ⟨["alpha", "beta"]⟩ [[AnchorVal.term "beta"]] = some [[i]] ∧
      tokenify_anchors ⟨["alpha", "beta"]⟩ [[i]] = some [["beta"]] :=
  anchor_conversion_roundtrip ⟨["alpha", "beta"]⟩ "beta" (by decide)

/-- Claim C2: an integral anchor value passes through `convert_anchor`
unchanged, and a string term absent from the dataset's vocabulary makes the
lookup fail (UnknownTermError, modelled as `none`) rather than produce a
default value. -/
theorem convert_anchor_cases (ds : Dataset) (n : Nat) (t : String)
    (h : t ∉ ds.vocab) :
    convert_anchor ds (AnchorVal.index n) = some n ∧
      convert_anchor ds (AnchorVal.term t) = none := by
  refine ⟨rfl, ?_⟩
  simp only [convert_anchor]
  exact (listIndex_none t ds.vocab).mpr h

/-- Witness for C2 at a concrete dataset, index and unknown term. -/
theorem convert_anchor_cases_witness :
    convert_anchor ⟨["alpha", "beta"]⟩ (AnchorVal.index 5) = some 5 ∧
      convert_anchor ⟨["alpha", "beta"]⟩ (AnchorVal.term "gamma") = none :=
  convert_anchor_cases ⟨["alpha", "beta"]⟩ 5 "gamma" (by decide)

/-! ### Cache stacking lemmas (claim C5) -/

theorem memo_pickle_call_touches {κ α : Type _} [DecidableEq κ] [DecidableEq α]
    (g : κ → α) (k : κ) (s : CacheState κ α) :
    ((memo_pickle_call g k s).2).diskTouches =
      s.diskTouches + (if memoFind k s.memo = none then 1 else 0) := by
  unfold memo_pickle_call pickle_cache_call
  cases hm : memoFind k s.memo <;> cases hd : s.disk <;> simp [hm, hd]

theorem memo_pickle_call_memo_preserved {κ α : Type _} [DecidableEq κ]
    (g : κ → α) (k : κ) (s : CacheState κ α) (hm : memoFind k s.memo = none) :
    ((memo_pickle_call g k s).2).memo = (k, (memo_pickle_call g k s).1) :: s.memo := by
  unfold memo_pickle_call pickle_cache_call
  cases hd : s.disk <;> simp [hm, hd]

theorem memo_pickle_call_hit_state {κ α : Type _} [DecidableEq κ]
    (g : κ → α) (k : κ) (s : CacheState κ α) {v : α}
    (hm : memoFind k s.memo = some v) :
    (memo_pickle_call g k s).2 = s := by
  unfold memo_pickle_call
  simp [hm]

theorem memo_pickle_run_touches {κ α : Type _} [DecidableEq κ] [DecidableEq α]
    (g : κ → α) :
    ∀ (ks : List κ) (s : CacheState κ α),
      (memo_pickle_run g ks s).diskTouches ≤
        s.diskTouches + (ks.toFinset.filter (fun x => memoFind x s.memo = none)).card := by
  intro ks
  induction ks with
  | nil => intro s; simp [memo_pickle_run]
  | cons k rest ih =>
    intro s
    show (memo_pickle_run g rest (memo_pickle_call g k s).2).diskTouches ≤ _
    cases hm : memoFind k s.memo with
    | some v =>
      rw [memo_pickle_call_hit_state g k s hm]
      have hcard : ((k :: rest).toFinset.filter (fun x => memoFind x s.memo = none)).card =
          (rest.toFinset.filter (fun x => memoFind x s.memo = none)).card := by
        rw [List.toFinset_cons, Finset.filter_insert, if_neg (by simp [hm])]
      rw [hcard]
      exact ih s
    | none =>
      have htch := memo_pickle_call_touches g k s
      rw [hm] at htch
      simp at htch
      have hmemo := memo_pickle_call_memo_preserved g k s hm
      have hstep := ih ((memo_pickle_call g k s).2)
      have hfind : ∀ x, memoFind x ((memo_pickle_call g k s).2).memo =
          (if k = x then some (memo_pickle_call g k s).1 else memoFind x s.memo) := by
        intro x
        rw [hmemo]
        simp [memoFind]
      by_cases hk : k ∈ rest.toFinset
      · have hkfil : k ∈ rest.toFinset.filter (fun x => memoFind x s.memo = none) :=
          Finset.mem_filter.mpr ⟨hk, hm⟩
        have hfil : rest.toFinset.filter
              (fun x => memoFind x ((memo_pickle_call g k s).2).memo = none) =
            (rest.toFinset.filter (fun x => memoFind x s.memo = none)).erase k := by
          ext x
          simp only [Finset.mem_filter, Finset.mem_erase, hfind]
          constructor
          · intro ⟨hx, hfx⟩
            by_cases hkx : k = x
            · rw [if_pos hkx] at hfx; exact absurd hfx (by simp)
            · rw [if_neg hkx] at hfx
              exact ⟨fun hxk => hkx hxk.symm, hx, hfx⟩
          · intro ⟨hxk, hx, hfx⟩
            refine ⟨hx, ?_⟩
            rw [if_neg (fun hkx => hxk hkx.symm)]
            exact hfx
        have hcard2 : ((k :: rest).toFinset.filter (fun x => memoFind x s.memo = none)).card =
            (rest.toFinset.filter (fun x => memoFind x s.memo = none)).card := by
          rw [List.toFinset_cons, Finset.filter_insert, if_pos hm,
            Finset.insert_eq_self.mpr hkfil]
        have hpos : 0 < (rest.toFinset.filter (fun x => memoFind x s.memo = none)).card :=
          Finset.card_pos.mpr ⟨k, hkfil⟩
        rw [hfil, Finset.card_erase_of_mem hkfil] at hstep
        rw [hcard2]
        omega
      · have hfil : rest.toFinset.filter
              (fun x => memoFind x ((memo_pickle_call g k s).2).memo = none) =
            rest.toFinset.filter (fun x => memoFind x s.memo = none) := by
          apply Finset.filter_congr
          intro x hx
          rw [hfind x, if_neg (fun hkx => hk (by rw [hkx]; exact hx))]
        have hkfil : k ∉ rest.toFinset.filter (fun x => memoFind x s.memo = none) := by
          intro hc
          exact hk (Finset.mem_filter.mp hc).1
        have hcard2 : ((k :: rest).toFinset.filter (fun x => memoFind x s.memo = none)).card =
            (rest.toFinset.filter (fun x => memoFind x s.memo = none)).card + 1 := by
          rw [List.toFinset_cons, Finset.filter_insert, if_pos hm,
            Finset.card_insert_of_not_mem hkfil]
        rw [hfil] at hstep
        rw [hcard2]
        omega

/-- Claim C5: with argument memoization wrapped outside persistent caching
(the decorator stacking on `get_newsgroups` and `default_anchors`), the
durable store is touched exactly on an in-process miss, a persistent hit is
returned and recorded in the in-process cache before returning (the builder
does not run), and over any call sequence in one process the durable store
is touched at most once per distinct argument signature not already
memoized. -/
theorem cache_stacking_invariant {κ α : Type _} [DecidableEq κ] [DecidableEq α]
    (g : κ → α) (k : κ) (s : CacheState κ α) (ks : List κ) :
    ((memo_pickle_call g k s).2).diskTouches =
        s.diskTouches + (if memoFind k s.memo = none then 1 else 0) ∧
      (memo_pickle_call g k s).1 =
        (match memoFind k s.memo with
         | some v => v
         | none =>
           match s.disk with
           | some v => v
           | none => g k) ∧
      memoFind k ((memo_pickle_call g k s).2).memo = some ((memo_pickle_call g k s).1) ∧
      ((memo_pickle_call g k s).2).builds =
        s.builds + (if memoFind k s.memo = none ∧ s.disk = none then 1 else 0) ∧
      (memo_pickle_run g ks s).diskTouches ≤
        s.diskTouches + (ks.toFinset.filter (fun x => memoFind x s.memo = none)).card := by
  refine ⟨memo_pickle_call_touches g k s, ?_, ?_, ?_, memo_pickle_run_touches g ks s⟩
  · unfold memo_pickle_call pickle_cache_call
    cases hm : memoFind k s.memo <;> cases hd : s.disk <;> simp [hm, hd]
  · unfold memo_pickle_call pickle_cache_call
    cases hm : memoFind k s.memo <;> cases hd : s.disk <;> simp [hm, hd, memoFind]
  · unfold memo_pickle_call pickle_cache_call
    cases hm : memoFind k s.memo <;> cases hd : s.disk <;> simp [hm, hd]

/-! ### Tokenizer lemmas: `split`, `simple`, `news` -/

theorem splitAux_ws (ws : List Nat) (hws : ws.all isSpace = true) :
    ∀ (acc : List Nat), splitAux ws acc = if acc = [] then [] else [acc.reverse] := by
  induction ws with
  | nil => intro acc; rfl
  | cons c cs ih =>
    intro acc
    simp only [List.all_cons, Bool.and_eq_true] at hws
    by_cases ha : acc = []
    · simp [splitAux, hws.1, ha, ih hws.2]
    · simp [splitAux, hws.1, ha, ih hws.2]

theorem splitAux_leading_ws :
    ∀ (ws : List Nat), ws.all isSpace = true →
      ∀ (x : List Nat), splitAux (ws ++ x) [] = splitAux x []
  | [], _, x => rfl
  | c :: cs, h, x => by
    simp only [List.all_cons, Bool.and_eq_true] at h
    show splitAux (c :: (cs ++ x)) [] = _
    simp [splitAux, h.1, splitAux_leading_ws cs h.2 x]

theorem splitAux_append_ws (ws : List Nat) (hws : ws.all isSpace = true) :
    ∀ (a acc : List Nat), splitAux (a ++ ws) acc = splitAux a acc := by
  intro a
  induction a with
  | nil =>
    intro acc
    rw [List.nil_append, splitAux_ws ws hws acc]
    rfl
  | cons c cs ih =>
    intro acc
    by_cases hc : isSpace c = true
    · by_cases ha : acc = [] <;> simp [splitAux, hc, ha, ih]
    · simp only [Bool.not_eq_true] at hc
      simp [splitAux, hc, ih]

theorem splitAux_token :
    ∀ (t : List Nat), (∀ c ∈ t, isSpace c = false) →
      ∀ (rest acc : List Nat),
        splitAux (t ++ rest) acc = splitAux rest (t.reverse ++ acc)
  | [], _, rest, acc => by simp
  | c :: cs, ht, rest, acc => by
    have hc : isSpace c = false := ht c (List.mem_cons_self c cs)
    have hrec := splitAux_token cs (fun x hx => ht x (List.mem_cons_of_mem c hx))
      rest (c :: acc)
    show splitAux (c :: (cs ++ rest)) acc = _
    simp [splitAux, hc, hrec, List.append_assoc]

theorem split_joinTokens :
    ∀ (ts : List (List Nat)),
      (∀ t ∈ ts, t ≠ [] ∧ ∀ c ∈ t, isSpace c = false) →
      split (joinTokens ts) = ts
  | [], _ => rfl
  | [t], h => by
    obtain ⟨hne, hns⟩ := h t (List.mem_cons_self t [])
    show splitAux t [] = [t]
    have htk := splitAux_token t hns [] []
    rw [List.append_nil] at htk
    rw [htk]
    have hrne : t.reverse ≠ [] := by simp [hne]
    simp [splitAux, hrne]
  | t :: u :: ts, h => by
    obtain ⟨hne, hns⟩ := h t (List.mem_cons_self _ _)
    have hrest : ∀ x ∈ u :: ts, x ≠ [] ∧ ∀ c ∈ x, isSpace c = false :=
      fun x hx => h x (List.mem_cons_of_mem t hx)
    show splitAux (t ++ 32 :: joinTokens (u :: ts)) [] = t :: u :: ts
    rw [splitAux_token t hns _ [], List.append_nil]
    have hrne : t.reverse ≠ [] := by simp [hne]
    have hrec : splitAux (joinTokens (u :: ts)) [] = u :: ts :=
      split_joinTokens (u :: ts) hrest
    have h32 : isSpace 32 = true := rfl
    simp [splitAux, h32, hrne, hrec]

theorem simple_token_mem {doc : List Nat} {splitter : List Nat → List (List Nat)}
    {t : List Nat} (h : t ∈ simple doc splitter) :
    t ≠ [] ∧ ∀ c ∈ t, isLowerAlpha c = true := by
  unfold simple at h
  obtain ⟨hmem, hne⟩ := List.mem_filter.mp h
  constructor
  · intro hnil; rw [hnil] at hne; simp at hne
  · obtain ⟨u, hu, hut⟩ := List.mem_map.mp hmem
    intro c hc
    rw [← hut] at hc
    exact List.of_mem_filter hc

theorem map_id_of_mem {α : Type _} {f : α → α} :
    ∀ {l : List α}, (∀ x ∈ l, f x = x) → l.map f = l
  | [], _ => rfl
  | a :: rest, h => by
    rw [List.map_cons, h a (List.mem_cons_self a rest),
      map_id_of_mem (fun x hx => h x (List.mem_cons_of_mem a hx))]

theorem pyLower_fix {c : Nat} (h : isLowerAlpha c = true) : pyLower c = c := by
  simp only [isLowerAlpha, Bool.and_eq_true, decide_eq_true_eq] at h
  unfold pyLower
  rw [if_neg]
  simp only [Bool.and_eq_true, decide_eq_true_eq, not_and]
  omega

theorem alpha_not_space {c : Nat} (h : isLowerAlpha c = true) : isSpace c = false := by
  simp only [isLowerAlpha, Bool.and_eq_true, decide_eq_true_eq] at h
  simp only [isSpace, Bool.or_eq_false_iff, decide_eq_false_iff_not]
  omega

/-- Claim C6: the `simple` tokenizer is idempotent — joining the token
sequence produced by `simple` with whitespace and running `simple` on the
result yields the same token sequence as the first run. -/
theorem simple_idempotent (doc : List Nat) :
    simple (joinTokens (simple doc split)) split = simple doc split := by
  have key : ∀ ts : List (List Nat),
      (∀ t ∈ ts, t ≠ [] ∧ ∀ c ∈ t, isLowerAlpha c = true) →
      simple (joinTokens ts) split = ts := by
    intro ts htok
    have hsplit : split (joinTokens ts) = ts :=
      split_joinTokens ts (fun t ht =>
        ⟨(htok t ht).1, fun c hc => alpha_not_space ((htok t ht).2 c hc)⟩)
    simp only [simple]
    rw [hsplit,
      map_id_of_mem (fun t ht =>
        map_id_of_mem (fun c hc => pyLower_fix ((htok t ht).2 c hc))),
      map_id_of_mem (fun t ht =>
        List.filter_eq_self.mpr (fun c hc => (htok t ht).2 c hc)),
      List.filter_eq_self.mpr (fun t ht => by
        rcases t with _ | ⟨a, t⟩
        · exact absurd rfl (htok _ ht).1
        · rfl)]
  exact key (simple doc split) (fun t ht => simple_token_mem ht)

/-- Claim C7: a document whose first line is blank (its characters are all
whitespace, including the empty first line of an empty file) is tokenized
by `news` exactly as its inner tokenizer (`simple`) tokenizes the whole
document. -/
theorem news_blank_first_line (doc : List Nat)
    (h : ((splitFirstLine doc).1).all isSpace = true) :
    news doc (fun d => simple d split) = simple doc split := by
  have hdrop : dropHeader doc = (splitFirstLine doc).2 := by
    rw [dropHeader, dif_pos h]
  show simple (dropHeader doc) split = simple doc split
  rw [hdrop]
  have hsplit : split ((splitFirstLine doc).2) = split doc := by
    conv_rhs => rw [← splitFirstLine_append doc]
    show _ = splitAux ((splitFirstLine doc).1 ++ (splitFirstLine doc).2) []
    rw [splitAux_leading_ws _ h _]
    rfl
  simp only [simple, hsplit]

/-- Witness for C7: a document starting with a blank line. -/
theorem news_blank_first_line_witness :
    news [10, 104, 105] (fun d => simple d split) = simple [10, 104, 105] split :=
  news_blank_first_line [10, 104, 105] (by decide)

theorem dropHeader_no_blank :
    ∀ (s : List Nat), (∀ l ∈ fileLines s, l.all isSpace = false) →
      dropHeader s = []
  | [], _ => by
    rw [dropHeader]
    simp [splitFirstLine]
  | c :: cs, h => by
    have hline : (splitFirstLine (c :: cs)).1 ∈ fileLines (c :: cs) := by
      rw [fileLines]
      exact List.mem_cons_self _ _
    have hns := h _ hline
    rw [dropHeader, dif_neg (by simp [hns])]
    exact dropHeader_no_blank (splitFirstLine (c :: cs)).2
      (fun l hl => h l (by rw [fileLines]; exact List.mem_cons_of_mem _ hl))
termination_by s => s.length
decreasing_by exact splitFirstLine_snd_lt c cs

/-- Claim C9: a document with no blank line makes the header scan of `news`
consume the whole input, so `news` returns the empty token sequence (and no
error). -/
theorem news_no_blank_line (doc : List Nat)
    (h : ∀ l ∈ fileLines doc, l.all isSpace = false) :
    dropHeader doc = [] ∧ news doc (fun d => simple d split) = [] := by
  have hd := dropHeader_no_blank doc h
  refine ⟨hd, ?_⟩
  show simple (dropHeader doc) split = []
  rw [hd]
  rfl

/-- Witness for C9: a one-line document with no blank line. -/
theorem news_no_blank_line_witness :
    dropHeader [104, 105] = [] ∧ news [104, 105] (fun d => simple d split) = [] :=
  news_no_blank_line [104, 105] (by
    simp [fileLines, splitFirstLine]
    decide)

/-- Claim C10: every token produced by `simple`, for every input source and
every splitter, is a non-empty string whose characters all lie in `a`–`z`
(code points 97–122). -/
theorem simple_tokens_lowercase (doc : List Nat)
    (splitter : List Nat → List (List Nat)) (t : List Nat)
    (h : t ∈ simple doc splitter) :
    t ≠ [] ∧ ∀ c ∈ t, 97 ≤ c ∧ c ≤ 122 := by
  obtain ⟨hne, halpha⟩ := simple_token_mem h
  refine ⟨hne, fun c hc => ?_⟩
  have := halpha c hc
  simp only [isLowerAlpha, Bool.and_eq_true, decide_eq_true_eq] at this
  exact this

/-- Witness for C10 on the document `"Ab3 x!"`. -/
theorem simple_tokens_lowercase_witness :
    ([97, 98] : List Nat) ≠ [] ∧ ∀ c ∈ [97, 98], 97 ≤ c ∧ c ≤ 122 :=
  simple_tokens_lowercase [65, 98, 51, 32, 120, 33] split [97, 98] (by decide)

/-! ### `html` on plain text (claim C8) -/

theorem pyLower_eq_60 {c : Nat} (h : pyLower c = 60) : c = 60 := by
  unfold pyLower at h
  split at h
  · rename_i hc
    simp only [Bool.and_eq_true, decide_eq_true_eq] at hc
    omega
  · exact h

theorem ciPrefixL_60_false {c : Nat} (hc : c ≠ 60) (p cs : List Nat) :
    ciPrefixL (60 :: p) (c :: cs) = false := by
  have hne : ¬((60:Nat) = pyLower c) := fun h => hc (pyLower_eq_60 h.symm)
  simp [ciPrefixL, hne]

theorem isPrefixL_60_false {c : Nat} (hc : c ≠ 60) (p cs : List Nat) :
    isPrefixL (60 :: p) (c :: cs) = false := by
  have hne : ¬((60:Nat) = c) := fun h => hc h.symm
  simp [isPrefixL, hne]

theorem scriptStyleMatch_none {c : Nat} (hc : c ≠ 60) (cs : List Nat) :
    scriptStyleMatch (c :: cs) = none := by
  unfold scriptStyleMatch
  rw [show ciPrefixL openScript (c :: cs) = false from
      ciPrefixL_60_false hc [115, 99, 114, 105, 112, 116] cs,
    show ciPrefixL openStyle (c :: cs) = false from
      ciPrefixL_60_false hc [115, 116, 121, 108, 101] cs]
  simp

theorem subScriptStyle_id :
    ∀ (l : List Nat), (60:Nat) ∉ l → subScriptStyle l = l := by
  intro l
  induction l using subScriptStyle.induct with
  | case1 => intro _; simp [subScriptStyle]
  | case2 c cs rest hm ih =>
    intro h
    have hc : c ≠ 60 := fun he => h (by rw [← he]; exact List.mem_cons_self _ _)
    rw [scriptStyleMatch_none hc cs] at hm
    exact Option.noConfusion hm
  | case3 c cs hm ih =>
    intro h
    have hcs : (60:Nat) ∉ cs := fun hmem => h (List.mem_cons_of_mem c hmem)
    simp only [subScriptStyle]
    split
    · rename_i rest hr
      rw [hm] at hr
      exact Option.noConfusion hr
    · rw [ih hcs]

theorem subComments_id :
    ∀ (l : List Nat), (60:Nat) ∉ l → subComments l = l := by
  intro l
  induction l using subComments.induct with
  | case1 => intro _; simp [subComments]
  | case2 c cs hpre rest hfind ih =>
    intro h
    have hc : c ≠ 60 := fun he => h (by rw [← he]; exact List.mem_cons_self _ _)
    rw [show isPrefixL commentOpen (c :: cs) = false from
        isPrefixL_60_false hc [33, 45, 45] cs] at hpre
    exact Bool.noConfusion hpre
  | case3 c cs hpre hfind ih =>
    intro h
    have hc : c ≠ 60 := fun he => h (by rw [← he]; exact List.mem_cons_self _ _)
    rw [show isPrefixL commentOpen (c :: cs) = false from
        isPrefixL_60_false hc [33, 45, 45] cs] at hpre
    exact Bool.noConfusion hpre
  | case4 c cs hpre ih =>
    intro h
    have hcs : (60:Nat) ∉ cs := fun hmem => h (List.mem_cons_of_mem c hmem)
    simp [subComments, hpre, ih hcs]

theorem subTags_id :
    ∀ (l : List Nat), (60:Nat) ∉ l → subTags l = l := by
  intro l
  induction l using subTags.induct with
  | case1 => intro _; simp [subTags]
  | case2 cs rest hm ih =>
    intro h
    exact absurd (List.mem_cons_self 60 cs) h
  | case3 cs hm ih =>
    intro h
    exact absurd (List.mem_cons_self 60 cs) h
  | case4 c cs hc ih =>
    intro h
    have hcs : (60:Nat) ∉ cs := fun hmem => h (List.mem_cons_of_mem c hmem)
    simp [subTags, hc, ih hcs]

theorem subNbsp_id :
    ∀ (l : List Nat), hasNbsp l = false → subNbsp l = l := by
  intro l
  induction l using subNbsp.induct with
  | case1 => intro _; simp [subNbsp]
  | case2 c cs hpre ih =>
    intro h
    simp [hasNbsp, hpre] at h
  | case3 c cs hpre ih =>
    intro h
    have hcs : hasNbsp cs = false := by
      simp only [hasNbsp, Bool.or_eq_false_iff] at h
      exact h.2
    simp [subNbsp, hpre, ih hcs]

theorem isPrefixL_append :
    ∀ (p l b : List Nat), isPrefixL p l = true → isPrefixL p (l ++ b) = true
  | [], _, _, _ => rfl
  | p :: ps, [], b, h => by simp [isPrefixL] at h
  | p :: ps, c :: cs, b, h => by
    simp only [isPrefixL, Bool.and_eq_true] at h
    simp only [List.cons_append, isPrefixL, Bool.and_eq_true]
    exact ⟨h.1, isPrefixL_append ps cs b h.2⟩

theorem hasNbsp_append_left :
    ∀ (a b : List Nat), hasNbsp (a ++ b) = false → hasNbsp a = false
  | [], _, _ => rfl
  | c :: cs, b, h => by
    rw [List.cons_append] at h
    simp only [hasNbsp, Bool.or_eq_false_iff] at h ⊢
    refine ⟨?_, hasNbsp_append_left cs b h.2⟩
    by_cases hp : isPrefixL nbspCode (c :: cs) = true
    · have hgrow := isPrefixL_append nbspCode (c :: cs) b hp
      rw [List.cons_append] at hgrow
      rw [hgrow] at h
      exact absurd h.1 (by simp)
    · simpa using hp

theorem hasNbsp_dropWhile (p : Nat → Bool) :
    ∀ (l : List Nat), hasNbsp l = false → hasNbsp (l.dropWhile p) = false
  | [], h => h
  | c :: cs, h => by
    rw [List.dropWhile_cons]
    by_cases hp : p c = true
    · rw [if_pos hp]
      have hcs : hasNbsp cs = false := by
        simp only [hasNbsp, Bool.or_eq_false_iff] at h
        exact h.2
      exact hasNbsp_dropWhile p cs hcs
    · rw [if_neg hp]
      exact h

theorem dropTrailing_spec (l : List Nat) :
    ∃ w, l = dropTrailing l ++ w ∧ w.all isSpace = true := by
  refine ⟨(l.reverse.takeWhile isSpace).reverse, ?_, ?_⟩
  · have hsplit2 : l.reverse = l.reverse.takeWhile isSpace ++ l.reverse.dropWhile isSpace :=
      (List.takeWhile_append_dropWhile _ _).symm
    calc l = l.reverse.reverse := (List.reverse_reverse l).symm
      _ = (l.reverse.takeWhile isSpace ++ l.reverse.dropWhile isSpace).reverse := by
          rw [← hsplit2]
      _ = (l.reverse.dropWhile isSpace).reverse ++ (l.reverse.takeWhile isSpace).reverse := by
          rw [List.reverse_append]
      _ = dropTrailing l ++ (l.reverse.takeWhile isSpace).reverse := rfl
  · rw [List.all_reverse]
    exact List.all_takeWhile

theorem hasNbsp_pyStrip (l : List Nat) (h : hasNbsp l = false) :
    hasNbsp (pyStrip l) = false := by
  have h1 : hasNbsp (l.dropWhile isSpace) = false := hasNbsp_dropWhile isSpace l h
  obtain ⟨w, hw, hws⟩ := dropTrailing_spec (l.dropWhile isSpace)
  unfold pyStrip
  exact hasNbsp_append_left _ w (by rw [← hw]; exact h1)

theorem not_mem_pyStrip {c : Nat} {l : List Nat} (h : c ∉ l) : c ∉ pyStrip l := by
  intro hc
  apply h
  unfold pyStrip dropTrailing at hc
  rw [List.mem_reverse] at hc
  have h1 := (List.dropWhile_sublist isSpace).subset hc
  rw [List.mem_reverse] at h1
  exact (List.dropWhile_sublist isSpace).subset h1

theorem splitAux_dropWhile_space :
    ∀ (l : List Nat), splitAux (l.dropWhile isSpace) [] = splitAux l []
  | [] => rfl
  | c :: cs => by
    rw [List.dropWhile_cons]
    by_cases hc : isSpace c = true
    · rw [if_pos hc, splitAux_dropWhile_space cs]
      simp [splitAux, hc]
    · rw [if_neg hc]

theorem split_pyStrip (l : List Nat) : split (pyStrip l) = split l := by
  obtain ⟨w, hw, hws⟩ := dropTrailing_spec (l.dropWhile isSpace)
  show splitAux (pyStrip l) [] = splitAux l []
  unfold pyStrip
  calc splitAux (dropTrailing (l.dropWhile isSpace)) []
      = splitAux (dropTrailing (l.dropWhile isSpace) ++ w) [] :=
        (splitAux_append_ws w hws _ []).symm
    _ = splitAux (l.dropWhile isSpace) [] := by rw [← hw]
    _ = splitAux l [] := splitAux_dropWhile_space l

theorem isPrefixL_cons_inv {p : Nat} {ps l : List Nat}
    (h : isPrefixL (p :: ps) l = true) :
    ∃ tail, l = p :: tail ∧ isPrefixL ps tail = true := by
  cases l with
  | nil => simp [isPrefixL] at h
  | cons c cs =>
    simp only [isPrefixL, Bool.and_eq_true, decide_eq_true_eq] at h
    exact ⟨cs, by rw [h.1], h.2⟩

theorem splitAux_subDoubleSpace :
    ∀ (s : List Nat) (acc : List Nat),
      splitAux (subDoubleSpace s) acc = splitAux s acc := by
  intro s
  induction s using subDoubleSpace.induct with
  | case1 => intro _; simp [subDoubleSpace]
  | case2 c cs hpre ih =>
    intro acc
    obtain ⟨t1, ht1, hp2⟩ := isPrefixL_cons_inv hpre
    obtain ⟨t2, ht2, _⟩ := isPrefixL_cons_inv hp2
    subst ht2
    injection ht1 with hc hcs
    subst hc
    subst hcs
    have heq : subDoubleSpace (32 :: 32 :: t2) = 32 :: subDoubleSpace t2 := by
      simp [subDoubleSpace, hpre]
    have ihd : ∀ a, splitAux (subDoubleSpace t2) a = splitAux t2 a := by
      intro a; simpa using ih a
    have h32 : isSpace 32 = true := rfl
    rw [heq]
    by_cases ha : acc = []
    · simp [splitAux, h32, ha, ihd]
    · simp [splitAux, h32, ha, ihd]
  | case3 c cs hpre ih =>
    intro acc
    have heq : subDoubleSpace (c :: cs) = c :: subDoubleSpace cs := by
      simp [subDoubleSpace, hpre]
    rw [heq]
    by_cases hc : isSpace c = true
    · by_cases ha : acc = [] <;> simp [splitAux, hc, ha, ih]
    · simp only [Bool.not_eq_true] at hc
      simp [splitAux, hc, ih]

/-- Amended claim C8: for plain-text input containing no `<` character (no
HTML tag can start) and no occurrence of the entity `&nbsp;`, the
tag-stripping steps of `html` leave the text unchanged and the space
normalization does not affect tokenization, so `html` produces the same
token sequence as `simple`. -/
theorem html_no_tags_no_nbsp (doc : List Nat) (h1 : (60:Nat) ∉ doc)
    (h2 : hasNbsp doc = false) :
    html doc (fun d => simple d split) = simple doc split := by
  have hstrip1 : (60:Nat) ∉ pyStrip doc := not_mem_pyStrip h1
  have hstripn : hasNbsp (pyStrip doc) = false := hasNbsp_pyStrip doc h2
  show simple (pyStrip (subDoubleSpace (subDoubleSpace (subNbsp (subTags
    (subComments (subScriptStyle (pyStrip doc)))))))) split = simple doc split
  rw [subScriptStyle_id _ hstrip1, subComments_id _ hstrip1, subTags_id _ hstrip1,
    subNbsp_id _ hstripn]
  have hs : split (pyStrip (subDoubleSpace (subDoubleSpace (pyStrip doc)))) = split doc := by
    rw [split_pyStrip]
    show splitAux (subDoubleSpace (subDoubleSpace (pyStrip doc))) [] = splitAux doc []
    rw [splitAux_subDoubleSpace, splitAux_subDoubleSpace]
    exact split_pyStrip doc
  simp only [simple, hs]

/-- Witness for the amended C8 on the plain text `"Hi  there"`. -/
theorem html_no_tags_no_nbsp_witness :
    html [72, 105, 32, 32, 116, 104, 101, 114, 101] (fun d => simple d split) =
      simple [72, 105, 32, 32, 116, 104, 101, 114, 101] split :=
  html_no_tags_no_nbsp [72, 105, 32, 32, 116, 104, 101, 114, 101]
    (by decide) (by decide)

/-- Counterexample to C8 as stated: `"a&nbsp;b"` (code points below)
contains no HTML tag (no `<` at all), yet `html` rewrites the `&nbsp;`
entity to a space and tokenizes to `["a", "b"]`, while `simple` on the raw
text yields the single token `"anbspb"`. -/
theorem html_plain_text_counterexample :
    (60:Nat) ∉ ([97, 38, 110, 98, 115, 112, 59, 98] : List Nat) ∧
      html [97, 38, 110, 98, 115, 112, 59, 98] (fun d => simple d split) = [[97], [98]] ∧
      simple [97, 38, 110, 98, 115, 112, 59, 98] split = [[97, 110, 98, 115, 112, 98]] ∧
      html [97, 38, 110, 98, 115, 112, 59, 98] (fun d => simple d split) ≠
        simple [97, 38, 110, 98, 115, 112, 59, 98] split := by
  have hh : html [97, 38, 110, 98, 115, 112, 59, 98] (fun d => simple d split) =
      [[97], [98]] := by
    simp [html, pyStrip, dropTrailing, subScriptStyle, scriptStyleMatch, subComments,
      subTags, subNbsp, subDoubleSpace, findGtRest, findCommentClose, findCiRest,
      isPrefixL, ciPrefixL, openScript, openStyle, commentOpen, nbspCode, pyLower,
      isSpace, simple, split, splitAux, isLowerAlpha]
  have hsimp : simple [97, 38, 110, 98, 115, 112, 59, 98] split =
      [[97, 110, 98, 115, 112, 98]] := by decide
  exact ⟨by decide, hh, hsimp, by rw [hh, hsimp]; decide⟩

/-! ### Topic summaries (claims C3, C4) -/

theorem pyArgsort_perm (col : List ℚ) :
    (pyArgsort col).Perm (List.range col.length) :=
  List.perm_insertionSort _ _

theorem pyArgsort_length (col : List ℚ) :
    (pyArgsort col).length = col.length := by
  rw [(pyArgsort_perm col).length_eq, List.length_range]

theorem pyArgsort_sorted (col : List ℚ) :
    List.Sorted (fun i j => colVal col i ≤ colVal col j) (pyArgsort col) := by
  letI : IsTotal Nat (fun i j => colVal col i ≤ colVal col j) :=
    ⟨fun a b => le_total _ _⟩
  letI : IsTrans Nat (fun i j => colVal col i ≤ colVal col j) :=
    ⟨fun a b c hab hbc => le_trans hab hbc⟩
  exact List.sorted_insertionSort _ _

theorem pyArgsort_mem {col : List ℚ} {i : Nat} (h : i ∈ pyArgsort col) :
    i < col.length :=
  List.mem_range.mp ((pyArgsort_perm col).mem_iff.mp h)

theorem topWords_length (col : List ℚ) :
    (topWords col).length = min 10 col.length := by
  unfold topWords
  rw [List.length_reverse, List.length_drop, pyArgsort_length]
  omega

theorem topWords_mem {col : List ℚ} {i : Nat} (h : i ∈ topWords col) :
    i < col.length := by
  unfold topWords at h
  rw [List.mem_reverse] at h
  exact pyArgsort_mem ((List.drop_sublist _ _).subset h)

theorem topWords_sorted (col : List ℚ) :
    List.Sorted (fun i j => colVal col j ≤ colVal col i) (topWords col) := by
  unfold topWords
  show List.Pairwise _ _
  refine List.pairwise_reverse.mpr ?_
  exact List.Pairwise.sublist (List.drop_sublist _ _) (pyArgsort_sorted col)

theorem topWords_top {col : List ℚ} {i j : Nat} (hi : i ∈ topWords col)
    (hj : j < col.length) (hnj : j ∉ topWords col) :
    colVal col j ≤ colVal col i := by
  have hsorted := pyArgsort_sorted col
  have htad := List.take_append_drop ((pyArgsort col).length - 10) (pyArgsort col)
  have hi2 : i ∈ (pyArgsort col).drop ((pyArgsort col).length - 10) := by
    unfold topWords at hi
    rw [List.mem_reverse] at hi
    exact hi
  have hj2 : j ∈ pyArgsort col :=
    (pyArgsort_perm col).mem_iff.mpr (List.mem_range.mpr hj)
  have hjtake : j ∈ (pyArgsort col).take ((pyArgsort col).length - 10) := by
    rcases List.mem_append.mp (by rw [htad]; exact hj2) with h1 | h2
    · exact h1
    · refine absurd ?_ hnj
      unfold topWords
      rw [List.mem_reverse]
      exact h2
  have hpw : List.Pairwise (fun a b => colVal col a ≤ colVal col b)
      ((pyArgsort col).take ((pyArgsort col).length - 10) ++
        (pyArgsort col).drop ((pyArgsort col).length - 10)) := by
    rw [htad]
    exact hsorted
  exact (List.pairwise_append.mp hpw).2.2 j hjtake i hi2

theorem summarize_some {ds : Dataset} {col : List ℚ}
    (h : col.length = ds.vocab.length) :
    ∃ su, summarize ds col = some su := by
  apply mapOption_some
  intro w hw
  have hlt : w < ds.vocab.length := h ▸ topWords_mem hw
  rw [List.get?_eq_get hlt]
  rfl

/-- Claim C3: when the caller supplies anchors, `topic_request` returns one
topic summary per anchor (one per topic column, under the external contract
that `ankura.recover_topics` yields one column per anchor, each of
vocabulary length); each summary lists that column's (up to) ten
highest-weighted vocabulary terms in descending weight order (ties resolved
by the modelled stable sort), and each summary has length at most 10 and at
most the vocabulary size. -/
theorem topic_request_summaries (ds : Dataset)
    (recover : Dataset → List (List Nat) → List (List ℚ))
    (defaults a : List (List AnchorVal)) (idxs : List (List Nat))
    (hidx : reindex_anchors ds a = some idxs)
    (hcount : (recover ds idxs).length = idxs.length)
    (hcols : ∀ col ∈ recover ds idxs, col.length = ds.vocab.length) :
    ∃ resp, topic_request ds recover defaults (some a) = some resp ∧
      resp.anchors = none ∧
      resp.topics.length = a.length ∧
      (∀ su ∈ resp.topics, su.length ≤ 10 ∧ su.length ≤ ds.vocab.length) ∧
      (∀ k col, (recover ds idxs).get? k = some col →
        ∃ su, resp.topics.get? k = some su ∧
          su.length = (topWords col).length ∧
          (∀ m w, (topWords col).get? m = some w → su.get? m = ds.vocab.get? w) ∧
          List.Sorted (fun i j => colVal col j ≤ colVal col i) (topWords col) ∧
          (∀ i ∈ topWords col, ∀ j, j < col.length → j ∉ topWords col →
            colVal col j ≤ colVal col i) ∧
          (topWords col).length = min 10 col.length) := by
  have hsome : ∀ col ∈ recover ds idxs, (summarize ds col).isSome := by
    intro col hc
    obtain ⟨su, hsu⟩ := summarize_some (hcols col hc)
    rw [hsu]
    rfl
  obtain ⟨ts, hts⟩ := mapOption_some _ _ hsome
  have hts2 : topicSummary ds (recover ds idxs) = some ts := hts
  refine ⟨⟨ts, none⟩, ?_, rfl, ?_, ?_, ?_⟩
  · simp only [topic_request, hidx, hts2]
  · have h1 : ts.length = (recover ds idxs).length := mapOption_length _ _ _ hts
    have h2 : idxs.length = a.length := mapOption_length _ _ _ hidx
    simp only [h1, hcount, h2]
  · intro su hsu
    obtain ⟨k, hk⟩ := List.mem_iff_get?.mp hsu
    have hbind := mapOption_get? _ _ _ hts k
    rw [hk] at hbind
    obtain ⟨col, hcol, hsum⟩ := Option.bind_eq_some.mp hbind.symm
    have hlen : su.length = (topWords col).length := mapOption_length _ _ _ hsum
    have hmin := topWords_length col
    have hc := hcols col (List.get?_mem hcol)
    constructor
    · omega
    · rw [hlen, hmin]
      omega
  · intro k col hcol
    obtain ⟨su, hsum⟩ := summarize_some (hcols col (List.get?_mem hcol))
    have hbind := mapOption_get? _ _ _ hts k
    rw [hcol] at hbind
    refine ⟨su, ?_, mapOption_length _ _ _ hsum, ?_, topWords_sorted col, ?_, topWords_length col⟩
    · rw [hbind]
      exact hsum
    · intro m w hw
      have hsb := mapOption_get? _ _ _ hsum m
      rw [hw] at hsb
      exact hsb
    · intro i hi j hj hnj
      exact topWords_top hi hj hnj

/-- Concrete dataset used by the C3 witness. -/
def dsW : Dataset := ⟨["a", "b", "c"]⟩

/-- Concrete opaque topic-recovery function used by the C3 witness: one
column per anchor, each of vocabulary length. -/
def recoverW : Dataset → List (List Nat) → List (List ℚ) :=
  fun _ idxs => idxs.map (fun _ => [2, 1, 3])

/-- Witness for C3 at one concrete anchor. -/
theorem topic_request_summaries_witness :
    ∃ resp, topic_request dsW recoverW [] (some [[AnchorVal.term "b"]]) = some resp ∧
      resp.anchors = none ∧
      resp.topics.length = ([[AnchorVal.term "b"]] : List (List AnchorVal)).length ∧
      (∀ su ∈ resp.topics, su.length ≤ 10 ∧ su.length ≤ dsW.vocab.length) ∧
      (∀ k col, (recoverW dsW [[1]]).get? k = some col →
        ∃ su, resp.topics.get? k = some su ∧
          su.length = (topWords col).length ∧
          (∀ m w, (topWords col).get? m = some w → su.get? m = dsW.vocab.get? w) ∧
          List.Sorted (fun i j => colVal col j ≤ colVal col i) (topWords col) ∧
          (∀ i ∈ topWords col, ∀ j, j < col.length → j ∉ topWords col →
            colVal col j ≤ colVal col i) ∧
          (topWords col).length = min 10 col.length) :=
  topic_request_summaries dsW recoverW [] [[AnchorVal.term "b"]] [[1]]
    (by decide) (by decide) (by decide)

/-- Claim C4: when no anchors are supplied, `topic_request` uses the cached
default anchor set and the response carries both the topic summaries and
the anchors actually used in token form; when the caller supplies anchors,
the response carries only the summaries and no anchors field. -/
theorem topic_request_anchor_echo (ds : Dataset)
    (recover : Dataset → List (List Nat) → List (List ℚ))
    (defaults : List (List AnchorVal))
    (raw : Option (List (List AnchorVal))) (resp : TopicResponse)
    (h : topic_request ds recover defaults raw = some resp) :
    (raw = none → ∃ idxs toks, reindex_anchors ds defaults = some idxs ∧
        tokenify_anchors ds idxs = some toks ∧ resp.anchors = some toks) ∧
    (∀ a, raw = some a → resp.anchors = none) := by
  cases raw with
  | none =>
    refine ⟨fun _ => ?_, fun a ha => Option.noConfusion ha⟩
    cases hidx : reindex_anchors ds defaults with
    | none => simp [topic_request, hidx] at h
    | some idxs =>
      cases hts : topicSummary ds (recover ds idxs) with
      | none => simp [topic_request, hidx, hts] at h
      | some ts =>
        cases htk : tokenify_anchors ds idxs with
        | none => simp [topic_request, hidx, hts, htk] at h
        | some toks =>
          simp only [topic_request, hidx, hts, htk] at h
          refine ⟨idxs, toks, rfl, htk, ?_⟩
          rw [← Option.some_inj.mp h]
  | some a =>
    refine ⟨fun hn => Option.noConfusion hn, fun b hb => ?_⟩
    cases hidx : reindex_anchors ds a with
    | none => simp [topic_request, hidx] at h
    | some idxs =>
      cases hts : topicSummary ds (recover ds idxs) with
      | none => simp [topic_request, hidx, hts] at h
      | some ts =>
        simp only [topic_request, hidx, hts] at h
        rw [← Option.some_inj.mp h]

/-- Witness for C4 on a concrete default-anchor request. -/
theorem topic_request_anchor_echo_witness :
    ((none : Option (List (List AnchorVal))) = none →
      ∃ idxs toks, reindex_anchors ⟨["a", "b"]⟩ [[AnchorVal.index 0]] = some idxs ∧
        tokenify_anchors ⟨["a", "b"]⟩ idxs = some toks ∧
        (TopicResponse.mk [["b", "a"]] (some [["a"]])).anchors = some toks) ∧
    (∀ a, (none : Option (List (List AnchorVal))) = some a →
      (TopicResponse.mk [["b", "a"]] (some [["a"]])).anchors = none) :=
  topic_request_anchor_echo ⟨["a", "b"]⟩ (fun _ _ => [[(1:ℚ), 2]])
    [[AnchorVal.index 0]] none ⟨[["b", "a"]], some [["a"]]⟩ (by decide)
